import Mathlib

/-!
Verification development for the repose repository manager (src/repoman.c).

The C program maintains a package repository index: a compressed archive
holding, per package, a "desc" and a "depends" text entry.  The definitions
below are a shallow embedding of the functions of src/repoman.c; external
collaborators (libalpm version comparison, checksum services, the archive
container) are passed in as parameters, and parts of the repository that are
not present under src (the pkghash container, the alpm_db_populate reader)
are modelled from the specification, as marked in their doc comments.
-/

set_option maxRecDepth 4000

/-- Record model of src/alpm_metadata.h's alpm_pkg_meta_t as used by
repoman.c: one package's metadata.  Sizes and the build date are modelled as
Nat (the spec declares them non-negative integers); the C stores them in
off_t/time_t and prints them with %ld. -/
structure PkgMeta where
  filename : String
  name : String
  version : String
  desc : String
  size : Nat
  isize : Nat
  md5sum : String
  sha256sum : String
  url : String
  license : List String
  arch : String
  builddate : Nat
  packager : String
  depends : List String
  conflicts : List String
  provides : List String
  optdepends : List String
  makedepends : List String
deriving Repr, DecidableEq

/-- Decimal digit character, as produced by printf's %ld for one digit. -/
def digitChar (d : Nat) : Char := Char.ofNat (48 + d)

/-- Fuelled digit accumulation: the fuel bounds the number of digits, so
the recursion is structural and computable in the kernel. -/
def natDigitsAux : Nat → Nat → List Char
  | 0, _ => []
  | _ + 1, 0 => []
  | fuel + 1, m + 1 => natDigitsAux fuel ((m + 1) / 10) ++ [digitChar ((m + 1) % 10)]

/-- Decimal digit list of a natural number (empty for 0). -/
def natDigits (n : Nat) : List Char := natDigitsAux n n

/-- Decimal rendering of a natural number, the output of printf %ld for a
non-negative value: no leading zeros, no sign. -/
def natToDec (n : Nat) : String :=
  if n = 0 then "0" else ⟨natDigits n⟩

/-- Numeric value of a decimal digit character. -/
def charDigit (c : Char) : Nat := c.toNat - 48

/-- Decimal parse of a digit list (the reader side of natToDec). -/
def decToNat (l : List Char) : Nat :=
  l.foldl (fun a c => a * 10 + charDigit c) 0

/-- Embedding of write_list (repoman.c:39-47): emit a %HEADER% line, then
one line per list element, then one blank line, appended to the buffer. -/
def write_list (buf : String) (header : String) (lst : List String) : String :=
  lst.foldl (fun b s => b ++ s ++ "\n") (buf ++ "%" ++ header ++ "%\n") ++ "\n"

/-- Embedding of write_string (repoman.c:49-52): %HEADER% line, the value,
and a blank line. -/
def write_string (buf header str : String) : String :=
  buf ++ "%" ++ header ++ "%\n" ++ str ++ "\n\n"

/-- Embedding of write_long (repoman.c:54-57) for the non-negative values
the program writes. -/
def write_long (buf header : String) (v : Nat) : String :=
  buf ++ "%" ++ header ++ "%\n" ++ natToDec v ++ "\n\n"

/-- Embedding of strrchr-based base-name extraction in write_desc_file
(repoman.c:70,74): the part after the last slash, or the whole string when
no slash occurs. -/
def basename (s : String) : String :=
  ⟨s.data.foldl (fun acc c => if c = '/' then [] else acc ++ [c]) []⟩

/-- Embedding of write_depends_file (repoman.c:59-66). -/
def write_depends_file (p : PkgMeta) (buf : String) : String :=
  let b := write_list buf "DEPENDS" p.depends
  let b := write_list b "CONFLICTS" p.conflicts
  let b := write_list b "PROVIDES" p.provides
  let b := write_list b "OPTDEPENDS" p.optdepends
  write_list b "MAKEDEPENDS" p.makedepends

/-- Embedding of write_desc_file (repoman.c:68-90).  The md5 and sha256
arguments are the values alpm_compute_md5sum / alpm_compute_sha256sum
return for the backing file: the C recomputes both from pkg->filename at
write time rather than copying the stored fields. -/
def write_desc_file (p : PkgMeta) (md5 sha256 : String) (buf : String) : String :=
  let b := write_string buf "FILENAME" (basename p.filename)
  let b := write_string b "NAME" p.name
  let b := write_string b "VERSION" p.version
  let b := write_string b "DESC" p.desc
  let b := write_long b "CSIZE" p.size
  let b := write_long b "ISIZE" p.isize
  let b := write_string b "MD5SUM" md5
  let b := write_string b "SHA256SUM" sha256
  let b := write_string b "URL" p.url
  let b := write_list b "LICENSE" p.license
  let b := write_string b "ARCH" p.arch
  let b := write_long b "BUILDDATE" p.builddate
  write_string b "PACKAGER" p.packager

/-- Embedding of repo_write_pkg (repoman.c:124-143): the two archive entries
written for one package, in order, with their entry paths.  The hash
services mf and sf stand for alpm_compute_md5sum and
alpm_compute_sha256sum applied to a path. -/
def repo_write_pkg (p : PkgMeta) (mf sf : String → String) : List (String × String) :=
  [(p.name ++ "-" ++ p.version ++ "/desc", write_desc_file p (mf p.filename) (sf p.filename) ""),
   (p.name ++ "-" ++ p.version ++ "/depends", write_depends_file p "")]

/-- Embedding of the write loop of update_db (repoman.c:302-313): the full
entry list of the archive produced for a cache, in enumeration order. -/
def repo_write (cache : List PkgMeta) (mf sf : String → String) : List (String × String) :=
  (cache.map (fun p => repo_write_pkg p mf sf)).flatten

/-- One entry yielded by the fts traversal in find_packages: the full path
as reported in fts_path and whether the entry is a regular file (FTS_F).
Directories and special files have isReg false. -/
structure FtsEnt where
  path : String
  isReg : Bool
deriving Repr, DecidableEq

/-- All suffixes of a character list, longest first, the empty suffix
included. -/
def suffixes : List Char → List (List Char)
  | [] => [[]]
  | c :: cs => (c :: cs) :: suffixes cs

/-- Shell glob matching as performed by fnmatch with FNM_CASEFOLD and
without FNM_PATHNAME: a star matches any character sequence, slashes
included, and literal characters compare case-insensitively.  The pattern
repoman.c uses contains no bracket expressions or question marks. -/
def fnmatchCF : List Char → List Char → Bool
  | [], s => s.isEmpty
  | '*' :: ps, s => (suffixes s).any (fun t => fnmatchCF ps t)
  | _ :: _, [] => false
  | p :: ps, c :: cs => (p.toLower = c.toLower) && fnmatchCF ps cs

/-- The fixed filter pattern of find_packages (repoman.c:157). -/
def filterPat : String := "*.pkg.tar*"

/-- Embedding of the fts_read loop of find_packages (repoman.c:172-184):
keep exactly the FTS_F entries whose fts_path matches the filter, appending
in traversal order (alpm_list_add appends at the end). -/
def find_packages (entries : List FtsEnt) : List String :=
  entries.foldl
    (fun acc e =>
      if e.isReg && fnmatchCF filterPat.data e.path.data then acc ++ [e.path] else acc)
    []

/-- Modelled from the spec: findByName of the Package Index (pkghash.c is
not under src).  Per section 4.2 the Index maps each name to at most one
Record; lookup returns the Record with the requested name. -/
def findByName (cache : List PkgMeta) (n : String) : Option PkgMeta :=
  cache.find? (fun p => p.name == n)

/-- Modelled from the spec: removeByName of the Package Index (pkghash.c is
not under src).  Removes the Record carrying the given name; under the
one-Record-per-name invariant this removes at most one entry. -/
def removeByName (cache : List PkgMeta) (n : String) : List PkgMeta :=
  cache.filter (fun p => p.name != n)

/-- Filesystem side effects the engine performs besides writing entries:
opening the archive for writing at a path, renaming, deleting a file, and
pointing the convenience symlink.  The rename constructor exists so that
the absence of any temp-then-rename step is expressible; repoman.c never
issues a rename. -/
inductive FsEvent
  | openWrite (path : String)
  | rename (src dst : String)
  | unlink (path : String)
  | symlink (target linkpath : String)
deriving Repr, DecidableEq

/-- The unlinked paths recorded in an event trace, in order. -/
def unlinkedPaths (evs : List FsEvent) : List String :=
  evs.filterMap (fun e => match e with | .unlink p => some p | _ => none)

/-- Embedding of verify_pkg (repoman.c:187-214).  fe models stat-based file
existence, mf and sf the md5 and sha256 services over the current file
contents.  Returns the C return code together with the warning lines
emitted (warn's errno suffix is elided). -/
def verify_pkg (fe : String → Bool) (mf sf : String → String)
    (p : PkgMeta) (deep : Bool) : Nat × List String :=
  if !fe p.filename then
    (1, ["couldn't find pkg " ++ p.filename])
  else if !deep then
    (0, [])
  else if p.md5sum ≠ mf p.filename then
    (1, ["md5 sum for pkg " ++ p.filename ++ " is different"])
  else if p.sha256sum ≠ sf p.filename then
    (1, ["sha256 sum for pkg " ++ p.filename ++ " is different"])
  else
    (0, [])

/-- Embedding of the loop of verify_db (repoman.c:221-232): every record is
checked deeply, the return codes are or-ed together, and on a zero result a
single confirmation line is printed. -/
def verify_db (fe : String → Bool) (mf sf : String → String)
    (db : List PkgMeta) : Nat × List String :=
  let r := db.foldl
    (fun acc p =>
      let v := verify_pkg fe mf sf p true
      (acc.1 ||| v.1, acc.2 ++ v.2))
    (0, [])
  if r.1 = 0 then (r.1, r.2 ++ ["repo okay!"]) else r

/-- Embedding of verify_db's entry (repoman.c:216-219) together with the
Reader.  The archive argument is the parsed index when an archive exists at
repositoryPath and none when it does not.  verify_db performs no existence
check: it hands the path straight to alpm_db_populate (repository code not
under src, whose spec contract covers only existing archives) and ignores
its result, so for a missing archive the embedded run has no defined
outcome, modelled as none. -/
def verify_action (fe : String → Bool) (mf sf : String → String)
    (archive : Option (List PkgMeta)) : Option (Nat × List String) :=
  match archive with
  | none => none
  | some db => some (verify_db fe mf sf db)

/-- Output events of query_db: a metadata dump of one package
(print_pkg_metadata, repoman.c:322-331) or an error line on stderr. -/
inductive QOut
  | meta (p : PkgMeta)
  | err (s : String)
deriving Repr, DecidableEq

/-- Embedding of the name loop of query_db (repoman.c:346-355): each found
package is printed immediately; the first name that is not found stops the
loop with return code 1 and the fixed message "pkg not found". -/
def query_loop (db : List PkgMeta) : List String → Nat × List QOut
  | [] => (0, [])
  | n :: ns =>
    match findByName db n with
    | none => (1, [QOut.err "pkg not found"])
    | some p =>
      let r := query_loop db ns
      (r.1, QOut.meta p :: r.2)

/-- Embedding of query_db (repoman.c:333-363).  The archive argument is the
parsed index when an archive exists at repositoryPath, none otherwise; the
missing-archive case is checked by the stat call at :338-341. -/
def query_db (archive : Option (List PkgMeta)) (names : List String) : Nat × List QOut :=
  match archive with
  | none => (1, [QOut.err "repo doesn't exist"])
  | some db =>
    if names.isEmpty then (0, db.map QOut.meta)
    else query_loop db names

/-- Result of one update_db run: the C return code, the final cache, the
archive entries written (none when the index was not dirty), and the
filesystem event trace. -/
structure UpdateResult where
  rc : Nat
  cache : List PkgMeta
  written : Option (List (String × String))
  events : List FsEvent
deriving Repr, DecidableEq

/-- Embedding of the candidate loop body of update_db (repoman.c:273-298)
for one discovered path.  State: current cache, event trace, dirty flag. -/
def update_step (loadMeta : String → PkgMeta) (vercmp : String → String → Int)
    (clean : Bool) (st : List PkgMeta × List FsEvent × Bool) (path : String) :
    List PkgMeta × List FsEvent × Bool :=
  let (cache, evs, dirty) := st
  let c := loadMeta path
  let old := findByName cache c.name
  let v : Int := match old with | none => 0 | some o => vercmp c.version o.version
  let (cache1, evs1, dirty1) :=
    if old = none ∨ v = 1 then
      match old with
      | some o =>
        (removeByName cache c.name ++ [c],
         (if clean then evs ++ [FsEvent.unlink o.filename] else evs), true)
      | none => (cache ++ [c], evs, true)
    else (cache, evs, dirty)
  let evs2 := if v = -1 ∧ clean then evs1 ++ [FsEvent.unlink c.filename] else evs1
  (cache1, evs2, dirty1)

/-- The state computation of update_db before the write decision: pruning
of records whose backing file is missing (repoman.c:253-264, which also
sets the dirty flag), then the candidate scan and merge loop
(repoman.c:267-299).  Result: final cache, event trace, dirty flag. -/
def update_core (archive : Option (List PkgMeta))
    (roots : List String) (entries : List FtsEnt)
    (loadMeta : String → PkgMeta) (vercmp : String → String → Int)
    (clean : Bool) (fe : String → Bool) : List PkgMeta × List FsEvent × Bool :=
  let cache0 : List PkgMeta :=
    match archive with
    | none => []
    | some db => db.filter (fun p => fe p.filename)
  let dirty0 : Bool :=
    match archive with
    | none => true
    | some db => db.any (fun p => !fe p.filename)
  let scanned := if roots.isEmpty then [] else find_packages entries
  scanned.foldl (update_step loadMeta vercmp clean) (cache0, [], dirty0)

/-- Embedding of update_db (repoman.c:235-320).  The archive argument is
the parsed index when an archive exists at repositoryPath (stat at :242)
and none otherwise; roots are the positional scan paths (argc/argv),
entries the fts traversal they produce, loadMeta the external metadata
extraction, vercmp the external version comparator, fe stat-based file
existence, and mf/sf the hash services used while writing.  The dirty
rewrite opens the archive for writing directly at repositoryPath
(repo_write_new at :305 passes repopath to archive_write_open_filename at
:117). -/
def update_db (repopath : String) (archive : Option (List PkgMeta))
    (roots : List String) (entries : List FtsEnt)
    (loadMeta : String → PkgMeta) (vercmp : String → String → Int)
    (mf sf : String → String) (clean : Bool) (fe : String → Bool) : UpdateResult :=
  let st := update_core archive roots entries loadMeta vercmp clean fe
  if st.2.2 then
    { rc := 0, cache := st.1, written := some (repo_write st.1 mf sf),
      events := st.2.1 ++ [FsEvent.openWrite repopath] }
  else
    { rc := 0, cache := st.1, written := none, events := st.2.1 }

/-- Embedding of the ACTION_UPDATE arm of main (repoman.c:434-448): the
repository path and link path derived from the repo name, the update run,
and the symlink made when the return code is zero.  The pair returned is
the process exit status and the full event trace. -/
def main_update (reponame : String) (archive : Option (List PkgMeta))
    (roots : List String) (entries : List FtsEnt)
    (loadMeta : String → PkgMeta) (vercmp : String → String → Int)
    (mf sf : String → String) (clean : Bool) (fe : String → Bool) :
    Nat × List FsEvent :=
  let repopath := reponame ++ ".db.tar.gz"
  let linkpath := reponame ++ ".db"
  let r := update_db repopath archive roots entries loadMeta vercmp mf sf clean fe
  (r.rc,
   r.events ++ (if r.rc = 0 then [FsEvent.symlink repopath linkpath] else []))

/-- Split a character list at newline characters; the result always has one
more element than the number of newlines, so a trailing newline yields a
trailing empty line. -/
def splitLines : List Char → List (List Char)
  | [] => [[]]
  | c :: cs =>
    if c = '\n' then [] :: splitLines cs
    else
      match splitLines cs with
      | [] => [[c]]
      | l :: ls => (c :: l) :: ls

/-- Whether a line has the %HEADER% delimiter shape of section 6 of the
spec: at least two characters, starting and ending with a percent sign. -/
def isHdr (l : List Char) : Bool :=
  l.length ≥ 2 && l.head? == some '%' && l.getLast? == some '%'

/-- The header name between the two percent signs. -/
def hdrName (l : List Char) : String := ⟨(l.drop 1).dropLast⟩

/-- Fuelled worker for parseBlocks: the fuel bounds the number of lines
still to be consumed, making the recursion structural and computable in
the kernel. -/
def parseBlocksAux : Nat → List (List Char) → List (String × List (List Char))
  | 0, _ => []
  | _ + 1, [] => []
  | fuel + 1, l :: ls =>
    if isHdr l then
      (hdrName l, ls.takeWhile (fun v => !v.isEmpty))
        :: parseBlocksAux fuel (ls.dropWhile (fun v => !v.isEmpty))
    else parseBlocksAux fuel ls

/-- Modelled from the spec: the field grammar of section 6 used by the
Reader (alpm_db_populate and its desc parser live in alpm_metadata.c, which
is not under src).  A field is a %HEADER% delimiter line followed by value
lines up to the next blank line. -/
def parseBlocks (lines : List (List Char)) : List (String × List (List Char)) :=
  parseBlocksAux lines.length lines

/-- Values of the block with the given header, as strings; empty when the
header is absent. -/
def blockVals (bs : List (String × List (List Char))) (h : String) : List String :=
  match bs.find? (fun b => b.1 == h) with
  | some b => b.2.map (fun v => (⟨v⟩ : String))
  | none => []

/-- Scalar reading of a block: its first value line, or the empty string
when the block has no value lines. -/
def blockScalar (bs : List (String × List (List Char))) (h : String) : String :=
  (blockVals bs h).headD ""

/-- Scalar reading of a decimal integer block. -/
def blockNat (bs : List (String × List (List Char))) (h : String) : Nat :=
  decToNat (blockScalar bs h).data

/-- Modelled from the spec: the Reader's reconstruction of one Record from
its desc and depends entries (the Reader's contract in sections 2 and 4.4;
its implementation, alpm_metadata.c, is not under src).  Each named field
is looked up by its %HEADER% delimiter. -/
def readPkg (descTxt depTxt : String) : PkgMeta :=
  let b := parseBlocks (splitLines descTxt.data)
  let d := parseBlocks (splitLines depTxt.data)
  { filename := blockScalar b "FILENAME"
    name := blockScalar b "NAME"
    version := blockScalar b "VERSION"
    desc := blockScalar b "DESC"
    size := blockNat b "CSIZE"
    isize := blockNat b "ISIZE"
    md5sum := blockScalar b "MD5SUM"
    sha256sum := blockScalar b "SHA256SUM"
    url := blockScalar b "URL"
    license := blockVals b "LICENSE"
    arch := blockScalar b "ARCH"
    builddate := blockNat b "BUILDDATE"
    packager := blockScalar b "PACKAGER"
    depends := blockVals d "DEPENDS"
    conflicts := blockVals d "CONFLICTS"
    provides := blockVals d "PROVIDES"
    optdepends := blockVals d "OPTDEPENDS"
    makedepends := blockVals d "MAKEDEPENDS" }

/-- Modelled from the spec: the Reader over a whole archive, consuming the
desc and depends entries written per Record in sequence. -/
def readDb : List (String × String) → List PkgMeta
  | (_, dsc) :: (_, dep) :: rest => readPkg dsc dep :: readDb rest
  | _ => []

/-- Abstract shape of one serialized field: a scalar with one value line or
a list with one line per element. -/
inductive FieldB
  | scalar (h : String) (v : String)
  | listF (h : String) (vs : List String)
deriving Repr, DecidableEq

/-- One line per value, each newline-terminated. -/
def renderLines : List String → String
  | [] => ""
  | v :: vs => v ++ "\n" ++ renderLines vs

/-- Rendering of one field in the wire format of section 6. -/
def renderField : FieldB → String
  | .scalar h v => "%" ++ h ++ "%\n" ++ v ++ "\n\n"
  | .listF h vs => "%" ++ h ++ "%\n" ++ renderLines vs ++ "\n"

/-- Concatenated rendering of a field sequence. -/
def renderFields : List FieldB → String
  | [] => ""
  | b :: l => renderField b ++ renderFields l

/-- Side conditions under which a field serializes reversibly: headers and
scalar values carry no newline, list elements carry no newline and are
nonempty (an empty element line would terminate the block early). -/
def fieldOk : FieldB → Prop
  | .scalar h v => '\n' ∉ h.data ∧ '\n' ∉ v.data
  | .listF h vs => '\n' ∉ h.data ∧ ∀ v ∈ vs, '\n' ∉ v.data ∧ v ≠ ""

instance : DecidablePred fieldOk := fun b => by
  cases b <;> simp only [fieldOk] <;> infer_instance

/-- The parsed block a well-formed field produces. -/
def blockOf : FieldB → String × List (List Char)
  | .scalar h v => (h, if v.data = [] then [] else [v.data])
  | .listF h vs => (h, vs.map (fun v => v.data))

/-- The field list write_desc_file emits, in source order
(repoman.c:74-86). -/
def descFields (p : PkgMeta) (md5 sha256 : String) : List FieldB :=
  [.scalar "FILENAME" (basename p.filename),
   .scalar "NAME" p.name,
   .scalar "VERSION" p.version,
   .scalar "DESC" p.desc,
   .scalar "CSIZE" (natToDec p.size),
   .scalar "ISIZE" (natToDec p.isize),
   .scalar "MD5SUM" md5,
   .scalar "SHA256SUM" sha256,
   .scalar "URL" p.url,
   .listF "LICENSE" p.license,
   .scalar "ARCH" p.arch,
   .scalar "BUILDDATE" (natToDec p.builddate),
   .scalar "PACKAGER" p.packager]

/-- The field list write_depends_file emits, in source order
(repoman.c:61-65). -/
def depFields (p : PkgMeta) : List FieldB :=
  [.listF "DEPENDS" p.depends,
   .listF "CONFLICTS" p.conflicts,
   .listF "PROVIDES" p.provides,
   .listF "OPTDEPENDS" p.optdepends,
   .listF "MAKEDEPENDS" p.makedepends]

/-- Serialization side conditions for one Record with the hash values m
and s written for it: every emitted field is reversible (headers and
scalar values newline-free, list elements newline-free and nonempty). -/
def pkgOk (p : PkgMeta) (m s : String) : Prop :=
  (∀ b ∈ descFields p m s, fieldOk b) ∧ (∀ b ∈ depFields p, fieldOk b)

instance (p : PkgMeta) (m s : String) : Decidable (pkgOk p m s) := by
  unfold pkgOk
  infer_instance

/-- Sample record builder for concrete instances: name, version, backing
file path, stored md5 and stored sha256; the remaining fields are fixed
harmless values. -/
def mkPkg (n v f m s : String) : PkgMeta :=
  { filename := f, name := n, version := v, desc := "d", size := 1, isize := 2,
    md5sum := m, sha256sum := s, url := "u", license := ["L"], arch := "a",
    builddate := 3, packager := "pk", depends := ["dep"], conflicts := [],
    provides := [], optdepends := [], makedepends := [] }

/-- C10: every update_db run that completes returns 0, whatever happened:
missing-file pruning, unlink calls under the clean flag and the archive
write are never reflected in the result, so a completed UPDATE exits the
process with status 0. -/
theorem update_always_returns_zero
    (reponame : String) (archive : Option (List PkgMeta))
    (roots : List String) (entries : List FtsEnt)
    (loadMeta : String → PkgMeta) (vercmp : String → String → Int)
    (mf sf : String → String) (clean : Bool) (fe : String → Bool) :
    (main_update reponame archive roots entries loadMeta vercmp mf sf clean fe).1 = 0 := by
  simp only [main_update, update_db]
  split <;> rfl

/-- C1: the claim requires write-to-temporary-then-atomic-rename, but the
dirty rewrite of update_db opens the archive for writing directly at
repositoryPath (repo_write_new at repoman.c:305 passes repopath into
archive_write_open_filename at :117) and never renames: on this concrete
dirty run (fresh repository, no candidates) the whole event trace is a
single open-for-write of the final path, so a crash mid-write leaves a
truncated archive at repositoryPath. -/
theorem update_write_opens_final_path :
    (update_db "test.db.tar.gz" none [] [] (fun _ => mkPkg "x" "1" "x.pkg.tar" "" "")
        (fun _ _ => 0) (fun _ => "h") (fun _ => "h") false (fun _ => true)).events
      = [FsEvent.openWrite "test.db.tar.gz"] ∧
    ∀ a b, FsEvent.rename a b ∉
      (update_db "test.db.tar.gz" none [] [] (fun _ => mkPkg "x" "1" "x.pkg.tar" "" "")
        (fun _ _ => 0) (fun _ => "h") (fun _ => "h") false (fun _ => true)).events := by
  have hev : (update_db "test.db.tar.gz" none [] []
      (fun _ => mkPkg "x" "1" "x.pkg.tar" "" "") (fun _ _ => 0)
      (fun _ => "h") (fun _ => "h") false (fun _ => true)).events
      = [FsEvent.openWrite "test.db.tar.gz"] := by decide
  refine ⟨hev, ?_⟩
  intro a b
  rw [hev]
  simp

/-- C5: the claim requires VERIFY to fail immediately with an error report
and non-zero exit when no archive exists, but verify_db (repoman.c:216-233)
performs no existence check at all: unlike query_db, which stats the path
and returns 1 with a report (repoman.c:338-341), verify_db hands the
missing path straight to the Reader and ignores its result, so the run has
no defined failure outcome (modelled none). -/
theorem verify_missing_archive_unchecked (fe : String → Bool) (mf sf : String → String) :
    verify_action fe mf sf none = none ∧
    query_db none [] = (1, [QOut.err "repo doesn't exist"]) :=
  ⟨rfl, rfl⟩

theorem update_db_char (repopath : String) (archive : Option (List PkgMeta))
    (roots : List String) (entries : List FtsEnt)
    (loadMeta : String → PkgMeta) (vercmp : String → String → Int)
    (mf sf : String → String) (clean : Bool) (fe : String → Bool) :
    (update_db repopath archive roots entries loadMeta vercmp mf sf clean fe).cache
      = (update_core archive roots entries loadMeta vercmp clean fe).1 ∧
    unlinkedPaths (update_db repopath archive roots entries loadMeta vercmp mf sf clean fe).events
      = unlinkedPaths (update_core archive roots entries loadMeta vercmp clean fe).2.1 := by
  simp only [update_db]
  split <;> simp [unlinkedPaths, List.filterMap_append]

theorem update_step_found (loadMeta : String → PkgMeta) (vercmp : String → String → Int)
    (clean : Bool) (cache : List PkgMeta) (evs : List FsEvent) (dirty : Bool)
    (path : String) (c old : PkgMeta)
    (hload : loadMeta path = c) (hold : findByName cache c.name = some old) :
    update_step loadMeta vercmp clean (cache, evs, dirty) path =
      if vercmp c.version old.version = 1 then
        (removeByName cache c.name ++ [c],
         (if clean then evs ++ [FsEvent.unlink old.filename] else evs), true)
      else
        (cache,
         (if vercmp c.version old.version = -1 ∧ clean then
            evs ++ [FsEvent.unlink c.filename]
          else evs), dirty) := by
  by_cases h1 : vercmp c.version old.version = 1
  · simp [update_step, hload, hold, h1]
  · simp [update_step, hload, hold, h1]

theorem update_core_single (db : List PkgMeta) (roots : List String)
    (entries : List FtsEnt) (path : String)
    (loadMeta : String → PkgMeta) (vercmp : String → String → Int)
    (clean : Bool) (fe : String → Bool)
    (hroots : roots ≠ []) (hscan : find_packages entries = [path])
    (hfe : ∀ p ∈ db, fe p.filename = true) :
    update_core (some db) roots entries loadMeta vercmp clean fe
      = update_step loadMeta vercmp clean (db, [], false) path := by
  have hfilter : db.filter (fun p => fe p.filename) = db :=
    List.filter_eq_self.mpr hfe
  have hany : (db.any fun p => !fe p.filename) = false := by
    rw [List.any_eq_false]
    intro p hp
    simp [hfe p hp]
  have hne : roots.isEmpty = false := by
    cases roots with
    | nil => exact absurd rfl hroots
    | cons a l => rfl
  simp [update_core, hne, hscan, hfilter, hany]

/-- C2: with a pre-existing Record old for the candidate's name whose
backing file (like every cached file) still exists, an UPDATE run over a
scan that discovers exactly the candidate c ends with c in the Index
exactly when the external comparator reports c's version newer than old's
(repoman.c:280-294); on a tie the cache is returned exactly as loaded and
no file is unlinked even under the clean flag (repoman.c:282,296 both
require a non-zero comparison). -/
theorem update_version_precedence
    (repopath : String) (db : List PkgMeta) (roots : List String)
    (entries : List FtsEnt) (path : String) (c old : PkgMeta)
    (loadMeta : String → PkgMeta) (vercmp : String → String → Int)
    (mf sf : String → String) (clean : Bool) (fe : String → Bool)
    (hroots : roots ≠ []) (hscan : find_packages entries = [path])
    (hload : loadMeta path = c) (hold : findByName db c.name = some old)
    (hfe : ∀ p ∈ db, fe p.filename = true) (hnotin : c ∉ db) :
    (c ∈ (update_db repopath (some db) roots entries loadMeta vercmp mf sf clean fe).cache
        ↔ vercmp c.version old.version = 1) ∧
    (vercmp c.version old.version = 0 →
      (update_db repopath (some db) roots entries loadMeta vercmp mf sf clean fe).cache = db ∧
      unlinkedPaths
        (update_db repopath (some db) roots entries loadMeta vercmp mf sf clean fe).events
        = []) := by
  obtain ⟨hc, he⟩ :=
    update_db_char repopath (some db) roots entries loadMeta vercmp mf sf clean fe
  rw [update_core_single db roots entries path loadMeta vercmp clean fe hroots hscan hfe]
    at hc he
  rw [update_step_found loadMeta vercmp clean db [] false path c old hload hold] at hc he
  by_cases h1 : vercmp c.version old.version = 1
  · constructor
    · rw [hc]
      simp [h1]
    · intro h0
      rw [h0] at h1
      exact absurd h1 (by decide)
  · constructor
    · rw [hc]
      simp only [if_neg h1]
      simp [h1, hnotin]
    · intro h0
      refine ⟨by rw [hc]; simp [h1], ?_⟩
      rw [he]
      simp [h1, h0, unlinkedPaths]

/-- C2 witness: a concrete newer-candidate run and a concrete tie run. -/
theorem update_version_precedence_witness :
    (mkPkg "foo" "2" "foo-2.pkg.tar" "" ""
        ∈ (update_db "r.db.tar.gz" (some [mkPkg "foo" "1" "foo-1.pkg.tar" "" ""]) ["d"]
            [⟨"foo-2.pkg.tar", true⟩]
            (fun _ => mkPkg "foo" "2" "foo-2.pkg.tar" "" "")
            (fun a b => if a = b then 0 else if a = "2" ∧ b = "1" then 1 else -1)
            (fun _ => "h") (fun _ => "h") true (fun _ => true)).cache
      ↔ (if ("2" : String) = "1" then (0 : Int) else if ("2" : String) = "2" ∧ ("1" : String) = "1" then 1 else -1) = 1) := by
  have h := update_version_precedence "r.db.tar.gz" [mkPkg "foo" "1" "foo-1.pkg.tar" "" ""]
    ["d"] [⟨"foo-2.pkg.tar", true⟩] "foo-2.pkg.tar"
    (mkPkg "foo" "2" "foo-2.pkg.tar" "" "") (mkPkg "foo" "1" "foo-1.pkg.tar" "" "")
    (fun _ => mkPkg "foo" "2" "foo-2.pkg.tar" "" "")
    (fun a b => if a = b then 0 else if a = "2" ∧ b = "1" then 1 else -1)
    (fun _ => "h") (fun _ => "h") true (fun _ => true)
    (by decide) (by decide) (by decide) (by decide) (by decide) (by decide)
  exact h.1

/-- C9: when the comparator reports the discovered candidate strictly older
than the cached Record, the Index is unchanged whatever the clean flag is,
and the candidate's backing file is unlinked exactly when the clean flag is
set (repoman.c:296-297). -/
theorem update_older_candidate
    (repopath : String) (db : List PkgMeta) (roots : List String)
    (entries : List FtsEnt) (path : String) (c old : PkgMeta)
    (loadMeta : String → PkgMeta) (vercmp : String → String → Int)
    (mf sf : String → String) (clean : Bool) (fe : String → Bool)
    (hroots : roots ≠ []) (hscan : find_packages entries = [path])
    (hload : loadMeta path = c) (hold : findByName db c.name = some old)
    (hfe : ∀ p ∈ db, fe p.filename = true)
    (holder : vercmp c.version old.version = -1) :
    (update_db repopath (some db) roots entries loadMeta vercmp mf sf clean fe).cache = db ∧
    unlinkedPaths
      (update_db repopath (some db) roots entries loadMeta vercmp mf sf clean fe).events
      = (if clean then [c.filename] else []) := by
  obtain ⟨hc, he⟩ :=
    update_db_char repopath (some db) roots entries loadMeta vercmp mf sf clean fe
  rw [update_core_single db roots entries path loadMeta vercmp clean fe hroots hscan hfe]
    at hc he
  rw [update_step_found loadMeta vercmp clean db [] false path c old hload hold] at hc he
  have h1 : ¬vercmp c.version old.version = 1 := by
    rw [holder]
    decide
  constructor
  · rw [hc]
    simp [h1]
  · rw [he]
    cases clean with
    | false => simp [h1, holder, unlinkedPaths]
    | true => simp [h1, holder, unlinkedPaths]

theorem find_packages_mem_aux (entries : List FtsEnt) (acc : List String) (q : String) :
    q ∈ entries.foldl
        (fun acc e =>
          if e.isReg && fnmatchCF filterPat.data e.path.data then acc ++ [e.path] else acc)
        acc
      ↔ q ∈ acc ∨ ∃ e ∈ entries,
          (e.isReg && fnmatchCF filterPat.data e.path.data) = true ∧ e.path = q := by
  induction entries generalizing acc with
  | nil => simp
  | cons e es ih =>
    simp only [List.foldl_cons]
    by_cases h : (e.isReg && fnmatchCF filterPat.data e.path.data) = true
    · rw [if_pos h, ih]
      simp only [List.mem_append, List.mem_singleton, List.mem_cons]
      aesop
    · rw [if_neg h, ih]
      simp only [List.mem_cons]
      aesop

/-- C7 amended: the Scanner returns exactly the regular-file traversal
entries whose FULL fts_path matches the pattern, because fnmatch is applied
to fts_path rather than the final segment and, without FNM_PATHNAME, a star
also matches slashes (repoman.c:175); so a regular file inside a directory
whose name contains .pkg.tar is returned even when the file's own name does
not match, while directories and special files are never returned. -/
theorem find_packages_matches_full_path (entries : List FtsEnt) (q : String) :
    q ∈ find_packages entries
      ↔ ∃ e ∈ entries,
          e.isReg = true ∧ fnmatchCF filterPat.data e.path.data = true ∧ e.path = q := by
  rw [find_packages, find_packages_mem_aux]
  simp [Bool.and_eq_true, and_assoc]

/-- C7 counterexample: the claim says a regular file whose final path
segment does not match the pattern is skipped, naming a file inside a
directory whose own name contains .pkg.tar as an example; but the code
matches the full path, so the file x.pkg.tar/readme is returned although
its final segment readme does not match. -/
theorem find_packages_dir_component_returned :
    find_packages [⟨"x.pkg.tar/readme", true⟩] = ["x.pkg.tar/readme"] ∧
    fnmatchCF filterPat.data "readme".data = false := by
  exact ⟨by decide, by decide⟩

/-- Behavior of the query name loop up to the first absent name. -/
theorem query_loop_first_missing (db : List PkgMeta) (pre : List String) (m : String)
    (post : List String)
    (hpre : ∀ n ∈ pre, (findByName db n).isSome)
    (hm : findByName db m = none) :
    query_loop db (pre ++ m :: post)
      = (1, pre.filterMap (fun n => (findByName db n).map QOut.meta)
            ++ [QOut.err "pkg not found"]) := by
  induction pre with
  | nil =>
    simp [query_loop, hm]
  | cons n pre ih =>
    have hn := hpre n (by simp)
    obtain ⟨p, hp⟩ := Option.isSome_iff_exists.mp hn
    have hrest := ih (fun x hx => hpre x (by simp [hx]))
    simp only [List.cons_append, query_loop, hp, List.append_eq] at hrest ⊢
    rw [hrest]
    simp [hp]

/-- C4 amended: when the requested names split as pre ++ missing :: post
with every name of pre present and the first absent name missing from the
Index, the query returns 1 and its output is the metadata of all names
before the missing one, already emitted, followed by the fixed error line
"pkg not found", which does not mention the missing name; the names after
it are not processed (repoman.c:346-355). -/
theorem query_first_missing (db : List PkgMeta) (pre : List String) (m : String)
    (post : List String)
    (hpre : ∀ n ∈ pre, (findByName db n).isSome)
    (hm : findByName db m = none) :
    query_db (some db) (pre ++ m :: post)
      = (1, pre.filterMap (fun n => (findByName db n).map QOut.meta)
            ++ [QOut.err "pkg not found"]) := by
  have hne : (pre ++ m :: post).isEmpty = false := by
    cases pre <;> rfl
  simp only [query_db, hne, Bool.false_eq_true, if_false]
  exact query_loop_first_missing db pre m post hpre hm

/-- C4 witness: one present name before the first absent name, one name
after it. -/
theorem query_first_missing_witness :
    query_db (some [mkPkg "alpha" "1" "a.pkg.tar" "m" "s"]) (["alpha"] ++ "beta" :: ["gamma"])
      = (1, ["alpha"].filterMap
            (fun n => (findByName [mkPkg "alpha" "1" "a.pkg.tar" "m" "s"] n).map QOut.meta)
          ++ [QOut.err "pkg not found"]) :=
  query_first_missing [mkPkg "alpha" "1" "a.pkg.tar" "m" "s"] ["alpha"] "beta" ["gamma"]
    (by decide) (by decide)

/-- C4 counterexample: the claim says no partial results are returned and
the error report states which name was missing; but the metadata of the
name found earlier in the list is emitted before the failure, and the
output is identical for two different missing names, so the report cannot
state which name was missing. -/
theorem query_partial_output_generic_error :
    query_db (some [mkPkg "foo" "1" "f.pkg.tar" "m" "s"]) ["foo", "bar"]
      = (1, [QOut.meta (mkPkg "foo" "1" "f.pkg.tar" "m" "s"), QOut.err "pkg not found"]) ∧
    query_db (some [mkPkg "foo" "1" "f.pkg.tar" "m" "s"]) ["foo", "qux"]
      = query_db (some [mkPkg "foo" "1" "f.pkg.tar" "m" "s"]) ["foo", "bar"] := by
  exact ⟨by decide, by decide⟩

theorem verify_pkg_rc (fe : String → Bool) (mf sf : String → String)
    (p : PkgMeta) (deep : Bool) :
    (verify_pkg fe mf sf p deep).1 = 0 ∨ (verify_pkg fe mf sf p deep).1 = 1 := by
  simp only [verify_pkg]
  split
  · exact Or.inr rfl
  · split
    · exact Or.inl rfl
    · split
      · exact Or.inr rfl
      · split
        · exact Or.inr rfl
        · exact Or.inl rfl

theorem lor01 (a b : Nat) (ha : a = 0 ∨ a = 1) (hb : b = 0 ∨ b = 1) :
    ((a ||| b) = 0 ↔ a = 0 ∧ b = 0) ∧ ((a ||| b) = 0 ∨ (a ||| b) = 1) := by
  rcases ha with h | h <;> rcases hb with h' | h' <;> subst h <;> subst h' <;> simp

theorem verify_fold_fst (fe : String → Bool) (mf sf : String → String)
    (db : List PkgMeta) (a : Nat) (m : List String) (ha : a = 0 ∨ a = 1) :
    ((db.foldl
        (fun acc p =>
          let v := verify_pkg fe mf sf p true
          (acc.1 ||| v.1, acc.2 ++ v.2))
        (a, m)).1 = 0
      ↔ a = 0 ∧ ∀ p ∈ db, (verify_pkg fe mf sf p true).1 = 0) := by
  induction db generalizing a m with
  | nil => simp
  | cons p ps ih =>
    simp only [List.foldl_cons]
    have hv := verify_pkg_rc fe mf sf p true
    obtain ⟨hiff, h01⟩ := lor01 a (verify_pkg fe mf sf p true).1 ha hv
    rw [ih _ _ h01, hiff]
    simp only [List.mem_cons]
    constructor
    · rintro ⟨⟨ha0, hv0⟩, hall⟩
      refine ⟨ha0, ?_⟩
      rintro q (rfl | hq)
      · exact hv0
      · exact hall q hq
    · rintro ⟨ha0, hall⟩
      exact ⟨⟨ha0, hall p (Or.inl rfl)⟩, fun q hq => hall q (Or.inr hq)⟩

theorem verify_fold_snd (fe : String → Bool) (mf sf : String → String)
    (db : List PkgMeta) (a : Nat) (m : List String) :
    ((db.foldl
        (fun acc p =>
          let v := verify_pkg fe mf sf p true
          (acc.1 ||| v.1, acc.2 ++ v.2))
        (a, m)).2
      = m ++ (db.map (fun p => (verify_pkg fe mf sf p true).2)).flatten) := by
  induction db generalizing a m with
  | nil => simp
  | cons p ps ih =>
    simp only [List.foldl_cons, List.map_cons, List.flatten_cons]
    rw [ih]
    simp

/-- C6 amended: all Records are checked without cross-record
short-circuiting (every record's warnings appear in the output, in order)
and the aggregate result is 0 exactly when every Record passes, but within
one Record the checks run in order existence, md5, sha256 and stop at the
first failure (verify_pkg returns at repoman.c:202), so a contentHash
mismatch is reported alone and suppresses the strongHash check. -/
theorem verify_all_records_first_mismatch (fe : String → Bool) (mf sf : String → String)
    (db : List PkgMeta) :
    ((verify_db fe mf sf db).1 = 0 ↔ ∀ p ∈ db, (verify_pkg fe mf sf p true).1 = 0) ∧
    ((verify_db fe mf sf db).2
      = (db.map (fun p => (verify_pkg fe mf sf p true).2)).flatten
          ++ (if (verify_db fe mf sf db).1 = 0 then ["repo okay!"] else [])) ∧
    (∀ p, fe p.filename = true → p.md5sum ≠ mf p.filename →
      verify_pkg fe mf sf p true
        = (1, ["md5 sum for pkg " ++ p.filename ++ " is different"])) := by
  have hfst := verify_fold_fst fe mf sf db 0 [] (Or.inl rfl)
  have hsnd := verify_fold_snd fe mf sf db 0 []
  simp only [eq_self_iff_true, true_and] at hfst
  have h1 : (verify_db fe mf sf db).1
      = (db.foldl
          (fun acc p =>
            let v := verify_pkg fe mf sf p true
            (acc.1 ||| v.1, acc.2 ++ v.2))
          (0, [])).1 := by
    simp only [verify_db]
    split <;> rfl
  refine ⟨by rw [h1]; exact hfst, ?_, ?_⟩
  · by_cases h : (db.foldl
        (fun acc p =>
          let v := verify_pkg fe mf sf p true
          (acc.1 ||| v.1, acc.2 ++ v.2))
        (0, [])).1 = 0
    · simp [verify_db, h, hsnd]
    · simp [verify_db, h, hsnd]
  · intro p hfe hmd5
    simp [verify_pkg, hfe, hmd5]

/-- C6 witness: a Record whose file exists and whose stored md5 differs
from the recomputed one. -/
theorem verify_all_records_first_mismatch_witness :
    verify_pkg (fun _ => true) (fun _ => "x") (fun _ => "y")
        (mkPkg "w" "1" "w.pkg.tar" "a" "b") true
      = (1, ["md5 sum for pkg " ++ "w.pkg.tar" ++ " is different"]) :=
  (verify_all_records_first_mismatch (fun _ => true) (fun _ => "x") (fun _ => "y") []).2.2
    (mkPkg "w" "1" "w.pkg.tar" "a" "b") (by decide) (by decide)

theorem str_empty_append (s : String) : "" ++ s = s := rfl

theorem foldl_append_str (l : List String) (b : String) :
    l.foldl (fun b s => b ++ s ++ "\n") b = b ++ renderLines l := by
  induction l generalizing b with
  | nil => simp [renderLines]
  | cons v vs ih =>
    simp only [List.foldl_cons, renderLines]
    rw [ih]
    simp [String.append_assoc]

theorem write_list_eq (buf h : String) (l : List String) :
    write_list buf h l = buf ++ ("%" ++ h ++ "%\n" ++ renderLines l ++ "\n") := by
  simp only [write_list]
  rw [foldl_append_str]
  simp [String.append_assoc]

/-- C8: the desc entry of every Record is written at path
"<name>-<version>/desc" and consists of exactly the thirteen fields
FILENAME (base name of the backing file), NAME, VERSION, DESC, CSIZE,
ISIZE, MD5SUM, SHA256SUM, URL, LICENSE, ARCH, BUILDDATE, PACKAGER in that
order, scalars rendered as a %HEADER% line, the value line and a blank
line, the LICENSE list rendered as a %HEADER% line, one value per line and
a blank line, the header emitted even for an empty list
(repoman.c:39-57,68-90,124-134). -/
theorem desc_entry_format (p : PkgMeta) (mf sf : String → String) (buf : String) :
    write_desc_file p (mf p.filename) (sf p.filename) buf
      = buf ++ ("%FILENAME%\n" ++ basename p.filename ++ "\n\n")
          ++ ("%NAME%\n" ++ p.name ++ "\n\n")
          ++ ("%VERSION%\n" ++ p.version ++ "\n\n")
          ++ ("%DESC%\n" ++ p.desc ++ "\n\n")
          ++ ("%CSIZE%\n" ++ natToDec p.size ++ "\n\n")
          ++ ("%ISIZE%\n" ++ natToDec p.isize ++ "\n\n")
          ++ ("%MD5SUM%\n" ++ mf p.filename ++ "\n\n")
          ++ ("%SHA256SUM%\n" ++ sf p.filename ++ "\n\n")
          ++ ("%URL%\n" ++ p.url ++ "\n\n")
          ++ ("%LICENSE%\n" ++ renderLines p.license ++ "\n")
          ++ ("%ARCH%\n" ++ p.arch ++ "\n\n")
          ++ ("%BUILDDATE%\n" ++ natToDec p.builddate ++ "\n\n")
          ++ ("%PACKAGER%\n" ++ p.packager ++ "\n\n") ∧
    repo_write_pkg p mf sf
      = [(p.name ++ "-" ++ p.version ++ "/desc",
          write_desc_file p (mf p.filename) (sf p.filename) ""),
         (p.name ++ "-" ++ p.version ++ "/depends", write_depends_file p "")] := by
  constructor
  · simp only [write_desc_file, write_string, write_long, write_list_eq,
      String.append_assoc]
    rfl
  · rfl

theorem str_data_append (a b : String) : (a ++ b).data = a.data ++ b.data := rfl

theorem str_mk_data (s : String) : (⟨s.data⟩ : String) = s := rfl

theorem decToNat_append_digit (l : List Char) (c : Char) :
    decToNat (l ++ [c]) = decToNat l * 10 + charDigit c := by
  simp [decToNat, List.foldl_append]

theorem charDigit_digitChar (d : Nat) (h : d < 10) : charDigit (digitChar d) = d := by
  interval_cases d <;> decide

theorem decToNat_natDigitsAux (fuel : Nat) :
    ∀ n, n ≤ fuel → decToNat (natDigitsAux fuel n) = n := by
  induction fuel with
  | zero =>
    intro n hn
    interval_cases n
    rfl
  | succ fuel ih =>
    intro n hn
    match n with
    | 0 => rfl
    | m + 1 =>
      have hdiv : (m + 1) / 10 ≤ fuel := by
        have := Nat.div_lt_self (Nat.succ_pos m) (show 1 < 10 by norm_num)
        omega
      rw [natDigitsAux, decToNat_append_digit, ih _ hdiv,
        charDigit_digitChar _ (Nat.mod_lt _ (by norm_num))]
      omega

theorem decToNat_natDigits (n : Nat) : decToNat (natDigits n) = n :=
  decToNat_natDigitsAux n n (Nat.le_refl n)

theorem dec_roundtrip (n : Nat) : decToNat (natToDec n).data = n := by
  by_cases h : n = 0
  · subst h
    decide
  · simp only [natToDec, if_neg h]
    exact decToNat_natDigits n

theorem splitLines_append_nl (a b : List Char) (h : '\n' ∉ a) :
    splitLines (a ++ '\n' :: b) = a :: splitLines b := by
  induction a with
  | nil => simp [splitLines]
  | cons c a ih =>
    have hc : ¬c = '\n' := by
      rintro rfl
      exact h (List.mem_cons_self _ _)
    have h' : '\n' ∉ a := fun hx => h (List.mem_cons_of_mem _ hx)
    simp only [List.cons_append, splitLines, if_neg hc, List.append_eq]
    rw [ih h']

theorem renderLines_splitLines (vs : List String) (r : List Char)
    (h : ∀ v ∈ vs, '\n' ∉ v.data) :
    splitLines ((renderLines vs).data ++ r) = vs.map (fun v => v.data) ++ splitLines r := by
  induction vs with
  | nil => simp [renderLines]
  | cons v vs ih =>
    simp only [renderLines, List.map_cons]
    have hv : (v ++ "\n" ++ renderLines vs).data ++ r
        = v.data ++ '\n' :: ((renderLines vs).data ++ r) := by
      simp [str_data_append]
    rw [hv, splitLines_append_nl _ _ (h v (by simp)),
      ih (fun x hx => h x (by simp [hx]))]
    rfl

theorem isHdr_hdr (h : List Char) : isHdr (('%' :: h) ++ ['%']) = true := by
  have h1 : ('%' :: (h ++ ['%'])).getLast? = some '%' := by
    rw [← List.cons_append]
    exact List.getLast?_concat _
  have h3 : (('%' :: h) ++ ['%']).length ≥ 2 := by
    simp only [List.length_append, List.length_cons, ge_iff_le]
    omega
  simp [isHdr, h1, h3]

theorem hdrName_hdr (h : List Char) : hdrName (('%' :: h) ++ ['%']) = (⟨h⟩ : String) := by
  simp [hdrName, List.dropLast_concat]

theorem str_data_ne_nil {v : String} (h : v ≠ "") : v.data ≠ [] := by
  intro hd
  apply h
  cases v with
  | mk d =>
    simp only at hd
    rw [hd]

theorem parseBlocksAux_mono (f1 : Nat) :
    ∀ (ls : List (List Char)) (f2 : Nat), ls.length ≤ f1 → ls.length ≤ f2 →
      parseBlocksAux f1 ls = parseBlocksAux f2 ls := by
  induction f1 with
  | zero =>
    intro ls f2 h1 h2
    have hnil : ls = [] := List.length_eq_zero.mp (Nat.le_zero.mp h1)
    subst hnil
    cases f2 <;> rfl
  | succ f ih =>
    intro ls f2 h1 h2
    cases ls with
    | nil => cases f2 <;> rfl
    | cons l ls' =>
      cases f2 with
      | zero => simp at h2
      | succ g =>
        simp only [List.length_cons] at h1 h2
        simp only [parseBlocksAux]
        by_cases hh : isHdr l = true
        · rw [if_pos hh, if_pos hh]
          have hlen : (List.dropWhile (fun v : List Char => !v.isEmpty) ls').length
              ≤ ls'.length := (List.dropWhile_sublist _).length_le
          exact congrArg _ (ih _ _ (by omega) (by omega))
        · rw [if_neg hh, if_neg hh]
          exact ih _ _ (by omega) (by omega)

theorem parseBlocks_nil : parseBlocks [] = [] := rfl

theorem parseBlocks_blank (rest : List (List Char)) :
    parseBlocks ([] :: rest) = parseBlocks rest := by
  simp only [parseBlocks, List.length_cons, parseBlocksAux,
    show isHdr [] = false from rfl, Bool.false_eq_true, if_false]

theorem parseBlocks_scalar (h v : List Char) (rest : List (List Char)) :
    parseBlocks ((('%' :: h) ++ ['%']) :: v :: [] :: rest)
      = ((⟨h⟩ : String), if v = [] then [] else [v]) :: parseBlocks rest := by
  have hblank : isHdr [] = false := rfl
  simp only [parseBlocks, List.length_cons]
  rw [parseBlocksAux, if_pos (isHdr_hdr h), hdrName_hdr]
  by_cases hv : v = []
  · subst hv
    simp only [List.takeWhile_cons, show (!List.isEmpty ([] : List Char)) = false from rfl,
      Bool.false_eq_true, if_false, List.dropWhile_cons]
    rw [parseBlocksAux, if_neg (by simp [hblank]), parseBlocksAux,
      if_neg (by simp [hblank])]
    simp
  · have hne : (!v.isEmpty) = true := by
      cases v with
      | nil => exact absurd rfl hv
      | cons a l => rfl
    simp only [List.takeWhile_cons, hne, if_true,
      show (!List.isEmpty ([] : List Char)) = false from rfl, Bool.false_eq_true,
      if_false, List.dropWhile_cons]
    rw [parseBlocksAux, if_neg (by simp [hblank])]
    rw [parseBlocksAux_mono _ _ rest.length (by simp) (Nat.le_refl _)]
    simp [hv]

theorem parseBlocks_list (h : List Char) (vs : List (List Char))
    (rest : List (List Char)) (hvs : ∀ v ∈ vs, v ≠ []) :
    parseBlocks ((('%' :: h) ++ ['%']) :: (vs ++ [] :: rest))
      = ((⟨h⟩ : String), vs) :: parseBlocks rest := by
  have hblank : isHdr [] = false := rfl
  have hpos : ∀ a ∈ vs, (fun v : List Char => !v.isEmpty) a = true := by
    intro a ha
    cases a with
    | nil => exact absurd rfl (hvs [] ha)
    | cons x l => rfl
  have htake : (vs ++ [] :: rest).takeWhile (fun v => !v.isEmpty) = vs := by
    rw [List.takeWhile_append_of_pos hpos]
    simp [List.takeWhile_cons]
  have hdrop : (vs ++ [] :: rest).dropWhile (fun v => !v.isEmpty) = [] :: rest := by
    rw [List.dropWhile_append_of_pos hpos]
    simp [List.dropWhile_cons]
  simp only [parseBlocks, List.length_cons]
  rw [parseBlocksAux, if_pos (isHdr_hdr h), hdrName_hdr, htake, hdrop]
  rw [parseBlocksAux_mono _ _ (rest.length + 1)
    (by simp only [List.length_cons, List.length_append]; omega)
    (by simp), parseBlocksAux, if_neg (by simp [hblank])]

theorem parse_render_aux (l : List FieldB) (r : List Char)
    (hok : ∀ b ∈ l, fieldOk b) :
    parseBlocks (splitLines ((renderFields l).data ++ r))
      = l.map blockOf ++ parseBlocks (splitLines r) := by
  induction l with
  | nil => simp [renderFields]
  | cons b l ih =>
    have hb := hok b (by simp)
    have hl : ∀ x ∈ l, fieldOk x := fun x hx => hok x (by simp [hx])
    cases b with
    | scalar h v =>
      obtain ⟨hh, hv⟩ := hb
      have hA : '\n' ∉ ('%' :: h.data) ++ ['%'] := by
        simp only [List.mem_append, List.mem_cons, List.mem_singleton]
        rintro ((hc | hc) | hc) <;> first | exact hh hc | simp at hc
      have hdata : (renderFields (FieldB.scalar h v :: l)).data ++ r
          = (('%' :: h.data) ++ ['%'])
              ++ '\n' :: (v.data ++ '\n' :: (([] : List Char)
              ++ '\n' :: ((renderFields l).data ++ r))) := by
        simp [renderFields, renderField, str_data_append,
          show ("%" : String).data = ['%'] from rfl,
          show ("%\n" : String).data = ['%', '\n'] from rfl,
          show ("\n\n" : String).data = ['\n', '\n'] from rfl]
      rw [hdata, splitLines_append_nl _ _ hA, splitLines_append_nl _ _ hv,
        splitLines_append_nl _ _ (by simp), parseBlocks_scalar, ih hl]
      simp [blockOf, str_mk_data]
    | listF h vs =>
      obtain ⟨hh, hvs⟩ := hb
      have hA : '\n' ∉ ('%' :: h.data) ++ ['%'] := by
        simp only [List.mem_append, List.mem_cons, List.mem_singleton]
        rintro ((hc | hc) | hc) <;> first | exact hh hc | simp at hc
      have hdata : (renderFields (FieldB.listF h vs :: l)).data ++ r
          = (('%' :: h.data) ++ ['%'])
              ++ '\n' :: ((renderLines vs).data
              ++ '\n' :: ((renderFields l).data ++ r)) := by
        simp [renderFields, renderField, str_data_append,
          show ("%" : String).data = ['%'] from rfl,
          show ("%\n" : String).data = ['%', '\n'] from rfl,
          show ("\n" : String).data = ['\n'] from rfl]
      rw [hdata, splitLines_append_nl _ _ hA,
        renderLines_splitLines vs _ (fun x hx => (hvs x hx).1),
        show splitLines ('\n' :: ((renderFields l).data ++ r))
            = [] :: splitLines ((renderFields l).data ++ r) from
          splitLines_append_nl [] _ (by simp),
        parseBlocks_list _ _ _ (fun x hx => by
          obtain ⟨w, hw, rfl⟩ := List.mem_map.mp hx
          exact str_data_ne_nil (hvs w hw).2),
        ih hl]
      simp [blockOf, str_mk_data]

theorem parse_render (l : List FieldB) (hok : ∀ b ∈ l, fieldOk b) :
    parseBlocks (splitLines (renderFields l).data) = l.map blockOf := by
  have h := parse_render_aux l [] hok
  rw [List.append_nil] at h
  rw [h]
  have : splitLines ([] : List Char) = [[]] := rfl
  rw [this, parseBlocks_blank, parseBlocks_nil, List.append_nil]

theorem write_desc_as_fields (p : PkgMeta) (m s : String) :
    write_desc_file p m s "" = renderFields (descFields p m s) := by
  simp only [write_desc_file, write_string, write_long, write_list_eq, descFields,
    renderFields, renderField, String.append_assoc]
  rfl

theorem write_dep_as_fields (p : PkgMeta) :
    write_depends_file p "" = renderFields (depFields p) := by
  simp only [write_depends_file, write_list_eq, depFields, renderFields, renderField,
    String.append_assoc]
  rfl

theorem scalar_read_data (v : String) :
    ((if v.data = [] then ([] : List (List Char)) else [v.data]).head?.getD []) = v.data := by
  by_cases h : v.data = []
  · rw [if_pos h, h]
    rfl
  · rw [if_neg h]
    rfl

theorem map_mk_data2 (vs : List String) : vs.map (fun v => (⟨v.data⟩ : String)) = vs := by
  induction vs with
  | nil => rfl
  | cons v vs ih => simp [ih, str_mk_data]

theorem map_mk_data_comp (vs : List String) :
    List.map ((fun v => (⟨v⟩ : String)) ∘ fun v => v.data) vs = vs := by
  induction vs with
  | nil => rfl
  | cons v vs ih => simp only [List.map_cons, Function.comp_apply, ih, str_mk_data]

theorem readPkg_write (p : PkgMeta) (m s : String) (hok : pkgOk p m s) :
    readPkg (write_desc_file p m s "") (write_depends_file p "")
      = { p with filename := basename p.filename, md5sum := m, sha256sum := s } := by
  obtain ⟨hdsc, hdep⟩ := hok
  have hb : parseBlocks (splitLines (write_desc_file p m s "").data)
      = (descFields p m s).map blockOf := by
    rw [write_desc_as_fields]
    exact parse_render _ hdsc
  have hd : parseBlocks (splitLines (write_depends_file p "").data)
      = (depFields p).map blockOf := by
    rw [write_dep_as_fields]
    exact parse_render _ hdep
  simp only [readPkg]
  rw [hb, hd]
  simp only [descFields, depFields, List.map_cons, List.map_nil, blockOf]
  simp only [blockNat, blockScalar, blockVals, List.find?]
  simp [Function.comp, scalar_read_data, str_mk_data, map_mk_data2, map_mk_data_comp,
    dec_roundtrip]

/-- C3 amended: writing an Index with the Writer and reading the produced
archive back via the Reader's contract yields, for every Index of
reversibly-serializable Records, an Index with the same Records except
that filename comes back as the base name of the backing file (the path is
stripped at repoman.c:70,74) and the two hash fields come back as the
hashes the Writer recomputed from the backing file at write time
(alpm_compute_md5sum and alpm_compute_sha256sum at repoman.c:71-72), not
the stored values: names and all other field values are preserved, and the
stored contentHash and strongHash are preserved exactly when they already
equal the recomputed ones. -/
theorem write_read_roundtrip (cache : List PkgMeta) (mf sf : String → String)
    (hok : ∀ p ∈ cache, pkgOk p (mf p.filename) (sf p.filename)) :
    readDb (repo_write cache mf sf)
      = cache.map (fun p =>
          { p with filename := basename p.filename,
                   md5sum := mf p.filename, sha256sum := sf p.filename }) := by
  induction cache with
  | nil => rfl
  | cons p rest ih =>
    have h1 := hok p (by simp)
    have h2 : ∀ q ∈ rest, pkgOk q (mf q.filename) (sf q.filename) :=
      fun q hq => hok q (by simp [hq])
    have hcons : repo_write (p :: rest) mf sf
        = repo_write_pkg p mf sf ++ repo_write rest mf sf := rfl
    rw [hcons, repo_write_pkg]
    simp only [List.cons_append, List.nil_append]
    rw [readDb, readPkg_write p _ _ h1, ih h2]
    rfl

/-- C3 witness: a one-record Index with a path-carrying filename whose
serialization conditions hold. -/
theorem write_read_roundtrip_witness :
    readDb (repo_write [mkPkg "foo" "1.0" "dir/foo-1.0.pkg.tar.gz" "aaa" "bbb"]
        (fun _ => "ccc") (fun _ => "ddd"))
      = [mkPkg "foo" "1.0" "dir/foo-1.0.pkg.tar.gz" "aaa" "bbb"].map (fun p =>
          { p with filename := basename p.filename,
                   md5sum := (fun _ : String => "ccc") p.filename,
                   sha256sum := (fun _ : String => "ddd") p.filename }) :=
  write_read_roundtrip [mkPkg "foo" "1.0" "dir/foo-1.0.pkg.tar.gz" "aaa" "bbb"]
    (fun _ => "ccc") (fun _ => "ddd") (by decide)

/-- C3 counterexample: the claim says the stored contentHash and
strongHash values are preserved by the write; but write_desc_file
recomputes both hashes from the backing file (repoman.c:71-72), so a
Record whose stored md5sum is aaa while the hash service returns ccc for
its file reads back with md5sum ccc, not aaa. -/
theorem roundtrip_stored_hash_not_preserved :
    (readDb (repo_write [mkPkg "foo" "1.0" "foo-1.0.pkg.tar.gz" "aaa" "bbb"]
        (fun _ => "ccc") (fun _ => "ddd"))).map (fun q => q.md5sum) = ["ccc"] ∧
    [mkPkg "foo" "1.0" "foo-1.0.pkg.tar.gz" "aaa" "bbb"].map (fun q => q.md5sum)
      = ["aaa"] := by
  exact ⟨by decide, by decide⟩

/-- C6 counterexample: the claim says a contentHash mismatch does not
suppress checking and reporting of the strongHash; on this Record both
stored checksums differ from the recomputed ones, yet only the md5
mismatch is reported: the sha256 check is skipped by the early return at
repoman.c:202. -/
theorem verify_md5_mismatch_suppresses_sha256 :
    verify_pkg (fun _ => true) (fun _ => "x") (fun _ => "y")
        (mkPkg "c6" "1" "c6.pkg.tar" "sm" "ss") true
      = (1, ["md5 sum for pkg c6.pkg.tar is different"]) ∧
    (mkPkg "c6" "1" "c6.pkg.tar" "sm" "ss").sha256sum ≠ "y" := by
  exact ⟨by decide, by decide⟩

/-- C9 witness: a concrete strictly-older candidate under the clean flag. -/
theorem update_older_candidate_witness :
    (update_db "r.db.tar.gz" (some [mkPkg "foo" "2" "foo-2.pkg.tar" "" ""]) ["d"]
        [⟨"foo-1.pkg.tar", true⟩] (fun _ => mkPkg "foo" "1" "foo-1.pkg.tar" "" "")
        (fun _ _ => -1) (fun _ => "h") (fun _ => "h") true (fun _ => true)).cache
      = [mkPkg "foo" "2" "foo-2.pkg.tar" "" ""] ∧
    unlinkedPaths
      (update_db "r.db.tar.gz" (some [mkPkg "foo" "2" "foo-2.pkg.tar" "" ""]) ["d"]
        [⟨"foo-1.pkg.tar", true⟩] (fun _ => mkPkg "foo" "1" "foo-1.pkg.tar" "" "")
        (fun _ _ => -1) (fun _ => "h") (fun _ => "h") true (fun _ => true)).events
      = (if true then ["foo-1.pkg.tar"] else []) :=
  update_older_candidate "r.db.tar.gz" [mkPkg "foo" "2" "foo-2.pkg.tar" "" ""]
    ["d"] [⟨"foo-1.pkg.tar", true⟩] "foo-1.pkg.tar"
    (mkPkg "foo" "1" "foo-1.pkg.tar" "" "") (mkPkg "foo" "2" "foo-2.pkg.tar" "" "")
    (fun _ => mkPkg "foo" "1" "foo-1.pkg.tar" "" "") (fun _ _ => -1)
    (fun _ => "h") (fun _ => "h") true (fun _ => true)
    (by decide) (by decide) (by decide) (by decide) (by decide) (by decide)
